import Mathlib

/-!
Shallow embedding of `src/lib/models/model.py` of the pose-estimation
baseline (the `Model` class: `forward`, `get_camera_trans`, `get_coord`),
over the reals.  Tensors are modelled per sample; a batch is a `List` of
samples and every batched tensor operation of the source acts
independently per sample, so the batched functions are `List.map` of the
per-sample ones.  The SMPL body-model layer, the backbone and the head are
external collaborators and appear as abstract function parameters.
-/

namespace PoseEst

/-- A 3D point / 3-vector of reals (one row of an `N×3` tensor). -/
structure Vec3 where
  x : ℝ
  y : ℝ
  z : ℝ

/-- A 2D point (one row of an `N×2` tensor). -/
structure Vec2 where
  x : ℝ
  y : ℝ

attribute [ext] Vec3 Vec2

instance : Zero Vec3 := ⟨⟨0, 0, 0⟩⟩

instance : Sub Vec3 := ⟨fun a b => ⟨a.x - b.x, a.y - b.y, a.z - b.z⟩⟩

instance : SMul ℝ Vec3 := ⟨fun r v => ⟨r * v.x, r * v.y, r * v.z⟩⟩

@[simp] theorem Vec3.zero_x : (0 : Vec3).x = 0 := rfl
@[simp] theorem Vec3.zero_y : (0 : Vec3).y = 0 := rfl
@[simp] theorem Vec3.zero_z : (0 : Vec3).z = 0 := rfl

@[simp] theorem Vec3.sub_x (a b : Vec3) : (a - b).x = a.x - b.x := rfl
@[simp] theorem Vec3.sub_y (a b : Vec3) : (a - b).y = a.y - b.y := rfl
@[simp] theorem Vec3.sub_z (a b : Vec3) : (a - b).z = a.z - b.z := rfl

@[simp] theorem Vec3.smul_x (r : ℝ) (v : Vec3) : (r • v).x = r * v.x := rfl
@[simp] theorem Vec3.smul_y (r : ℝ) (v : Vec3) : (r • v).y = r * v.y := rfl
@[simp] theorem Vec3.smul_z (r : ℝ) (v : Vec3) : (r • v).z = r * v.z := rfl

@[simp] theorem Vec3.sub_self (a : Vec3) : a - a = 0 := by
  ext <;> simp

@[simp] theorem Vec3.sub_zero (a : Vec3) : a - 0 = a := by
  ext <;> simp

/-- The configuration constants the camera pipeline reads
(`cfg.CAMERA.focal`, `cfg.CAMERA.princpt`, `cfg.CAMERA.camera_3d_size`,
`cfg.MODEL.input_img_shape`) together with the SMPL data the coordinate
pipeline reads (`smpl.joint_regressor`, `smpl.root_joint_idx`). -/
structure Config where
  focalX : ℝ
  focalY : ℝ
  princptX : ℝ
  princptY : ℝ
  camera3dSize : ℝ
  inputImgH : ℕ
  inputImgW : ℕ
  jointRegressor : List (List ℝ)
  rootJointIdx : ℕ

/-- The function `torch.sigmoid`: `sigmoid s = 1 / (1 + exp (−s))`. -/
noncomputable def sigmoid (s : ℝ) : ℝ := 1 / (1 + Real.exp (-s))

/-- The `k_value` expression of `get_camera_trans`:
`sqrt(focal[0]·focal[1]·camera_3d_size²/(input_img_shape[0]·input_img_shape[1]))`. -/
noncomputable def kValue (cfg : Config) : ℝ :=
  Real.sqrt (cfg.focalX * cfg.focalY * cfg.camera3dSize * cfg.camera3dSize /
    ((cfg.inputImgH : ℝ) * (cfg.inputImgW : ℝ)))

/-- The method `Model.get_camera_trans`, per sample: copies the first two raw camera
parameters and maps the third through `sigmoid` scaled by `k_value`. -/
noncomputable def get_camera_trans (cfg : Config) (camParam : Vec3) : Vec3 :=
  ⟨camParam.x, camParam.y, kValue cfg * sigmoid camParam.z⟩

/-- Weighted sum `Σᵢ wᵢ • vᵢ` of mesh vertices: one row of the
`joint_regressor × mesh` matrix product (`torch.bmm` in `get_coord`). -/
def weightedSum (w : List ℝ) (mesh : List Vec3) : Vec3 :=
  (List.zipWith (fun r v => r • v) w mesh).foldr
    (fun a b => ⟨a.x + b.x, a.y + b.y, a.z + b.z⟩) 0

/-- The joint-regressor step of `get_coord`:
`joint_cam = bmm(smpl.joint_regressor, mesh_cam)`, per sample. -/
def jointRegress (cfg : Config) (meshCam : List Vec3) : List Vec3 :=
  cfg.jointRegressor.map (fun row => weightedSum row meshCam)

/-- The pinhole projection of one joint in `get_coord`:
`x = (X + tx) / (Z + tz + 1e-4) * focal[0] + princpt[0]` and likewise for
`y` with `focal[1]`, `princpt[1]`. -/
noncomputable def projectJoint (cfg : Config) (camTrans : Vec3) (j : Vec3) : Vec2 :=
  ⟨(j.x + camTrans.x) / (j.z + camTrans.z + 1e-4) * cfg.focalX + cfg.princptX,
   (j.y + camTrans.y) / (j.z + camTrans.z + 1e-4) * cfg.focalY + cfg.princptY⟩

/-- The projection step of `get_coord` over all joints of a sample. -/
noncomputable def projectJoints (cfg : Config) (camTrans : Vec3) (joints : List Vec3) :
    List Vec2 :=
  joints.map (projectJoint cfg camTrans)

/-- The root-relative normalization step of `get_coord`: subtract the
joint at `rootIdx` (of the joints, not of the mesh) from every mesh vertex
and every joint. -/
def rootRelNormalize (mesh joints : List Vec3) (rootIdx : ℕ) :
    List Vec3 × List Vec3 :=
  let rootCam := joints.getD rootIdx 0
  (mesh.map (fun v => v - rootCam), joints.map (fun v => v - rootCam))

/-- The method `Model.get_coord`, per sample.  `smplLayer` is the external SMPL body
model (`self.smpl_layer(global_orient, body_pose, betas).vertices`).
Returns `(joint_proj, joint_cam, mesh_cam)` in the source's order. -/
noncomputable def get_coord (cfg : Config)
    (smplLayer : List ℝ → List ℝ → List ℝ → List Vec3)
    (smplRootPose smplPose smplShape : List ℝ) (camTrans : Vec3) :
    List Vec2 × List Vec3 × List Vec3 :=
  let meshCam := smplLayer smplRootPose smplPose smplShape
  let jointCam := jointRegress cfg meshCam
  let jointProj := projectJoints cfg camTrans jointCam
  let normalized := rootRelNormalize meshCam jointCam cfg.rootJointIdx
  (jointProj, normalized.2, normalized.1)

/-- Dot product of 3-vectors. -/
def Vec3.dot (a b : Vec3) : ℝ := a.x * b.x + a.y * b.y + a.z * b.z

/-- Cross product of 3-vectors. -/
def Vec3.cross (a b : Vec3) : Vec3 :=
  ⟨a.y * b.z - a.z * b.y, a.z * b.x - a.x * b.z, a.x * b.y - a.y * b.x⟩

/-- Squared Euclidean norm of a 3-vector. -/
def Vec3.normSq (a : Vec3) : ℝ := a.x * a.x + a.y * a.y + a.z * a.z

/-- Euclidean norm of a 3-vector. -/
noncomputable def Vec3.norm (a : Vec3) : ℝ := Real.sqrt a.normSq

/-- Normalization of a 3-vector to unit length. -/
noncomputable def Vec3.normalize (a : Vec3) : Vec3 := (a.norm)⁻¹ • a

/-- A 3×3 real matrix, entries `m i j` = row `i`, column `j`. -/
structure Mat3 where
  m11 : ℝ
  m12 : ℝ
  m13 : ℝ
  m21 : ℝ
  m22 : ℝ
  m23 : ℝ
  m31 : ℝ
  m32 : ℝ
  m33 : ℝ

/-- The matrix with the given columns. -/
def Mat3.ofCols (b1 b2 b3 : Vec3) : Mat3 :=
  ⟨b1.x, b2.x, b3.x, b1.y, b2.y, b3.y, b1.z, b2.z, b3.z⟩

/-- First column of a matrix. -/
def Mat3.col1 (R : Mat3) : Vec3 := ⟨R.m11, R.m21, R.m31⟩

/-- Second column of a matrix. -/
def Mat3.col2 (R : Mat3) : Vec3 := ⟨R.m12, R.m22, R.m32⟩

/-- Third column of a matrix. -/
def Mat3.col3 (R : Mat3) : Vec3 := ⟨R.m13, R.m23, R.m33⟩

/-- Modelled from the spec: `rot6d_to_axis_angle` lives in
`lib/funcs_utils.py`, which is not under `src/`; this follows §4.1 of the
spec word for word.  The 6-vector is two 3-vectors `(a1, a2)`;
Gram-Schmidt gives `b1 = normalize a1`, `b2 = normalize (a2 − (b1·a2) b1)`,
`b3 = b1 × b2`; `R = [b1 b2 b3]` (columns); then the matrix-logarithm
formula: `angle = arccos ((trace R − 1)/2)`, axis = the normalized vector
of the skew-symmetric part `(R − Rᵀ)/2`, output = angle · axis (the
degenerate `angle = 0` case yields the zero vector: the scale by `angle`
vanishes). -/
noncomputable def rot6d_to_axis_angle (a1 a2 : Vec3) : Vec3 :=
  let b1 := a1.normalize
  let b2 := (a2 - (b1.dot a2) • b1).normalize
  let b3 := b1.cross b2
  let R := Mat3.ofCols b1 b2 b3
  let angle := Real.arccos ((R.m11 + R.m22 + R.m33 - 1) / 2)
  let w : Vec3 := ⟨(R.m32 - R.m23) / 2, (R.m13 - R.m31) / 2, (R.m21 - R.m12) / 2⟩
  angle • w.normalize

/-- The first two columns of a rotation matrix, as the two halves of the
6D encoding that `rot6d_to_axis_angle` consumes. -/
def encode6d (R : Mat3) : Vec3 × Vec3 := (R.col1, R.col2)

/-- The rotation matrix of the axis-angle `(θ, u)` (Rodrigues formula
`R = cos θ · I + sin θ · [u]× + (1 − cos θ) · u uᵀ`), the reference
construction the spec's round-trip property starts from. -/
noncomputable def rodrigues (θ : ℝ) (u : Vec3) : Mat3 :=
  let c := Real.cos θ
  let s := Real.sin θ
  ⟨c + (1 - c) * u.x * u.x, -s * u.z + (1 - c) * u.x * u.y, s * u.y + (1 - c) * u.x * u.z,
   s * u.z + (1 - c) * u.x * u.y, c + (1 - c) * u.y * u.y, -s * u.x + (1 - c) * u.y * u.z,
   -s * u.y + (1 - c) * u.x * u.z, s * u.x + (1 - c) * u.y * u.z, c + (1 - c) * u.z * u.z⟩

/-- One sample of the head's output: `(smpl_pose6d, smpl_shape, cam_param)`. -/
structure HeadOut where
  pose6d : List ℝ
  shape : List ℝ
  camParam : Vec3

/-- The method `Model.get_coord` applied across a batch: every tensor operation in
the source acts per sample, so the batch result is the per-sample map. -/
noncomputable def get_coord_batch (cfg : Config)
    (smplLayer : List ℝ → List ℝ → List ℝ → List Vec3)
    (samples : List (List ℝ × List ℝ × List ℝ × Vec3)) :
    List (List Vec2 × List Vec3 × List Vec3) :=
  samples.map (fun s => get_coord cfg smplLayer s.1 s.2.1 s.2.2.1 s.2.2.2)

/-- The `reshape(-1, 6)` view on a flattened per-sample pose row: split the list
into consecutive chunks of six (a trailing fragment shorter than six is
kept as is; the source's reshape requires the length to be a multiple of
six). -/
def chunks6 (l : List ℝ) : List (List ℝ) :=
  match l with
  | a :: b :: c :: d :: e :: f :: rest => [a, b, c, d, e, f] :: chunks6 rest
  | [] => []
  | l => [l]

/-- The pose conversion line of `forward`:
`rot6d_to_axis_angle(smpl_pose.reshape(-1,6)).reshape(batch_size,-1)`,
per sample — each 6-chunk through the converter, results re-flattened. -/
noncomputable def pose6dToAxisAngle (p : List ℝ) : List ℝ :=
  (chunks6 p).flatMap fun ch =>
    let v := rot6d_to_axis_angle ⟨ch.getD 0 0, ch.getD 1 0, ch.getD 2 0⟩
      ⟨ch.getD 3 0, ch.getD 4 0, ch.getD 5 0⟩
    [v.x, v.y, v.z]

/-- The method `Model.forward`, per sample.  `backbone` and `head` are the external
network collaborators; returns
`(mesh_cam, joint_cam, joint_proj, smpl_pose, smpl_shape)`. -/
noncomputable def forward {Img Feat : Type} (cfg : Config)
    (backbone : Img → Feat) (head : Feat → HeadOut)
    (smplLayer : List ℝ → List ℝ → List ℝ → List Vec3) (img : Img) :
    List Vec3 × List Vec3 × List Vec2 × List ℝ × List ℝ :=
  let ho := head (backbone img)
  let smplPose := pose6dToAxisAngle ho.pose6d
  let camTrans := get_camera_trans cfg ho.camParam
  let coords := get_coord cfg smplLayer (smplPose.take 3) (smplPose.drop 3)
    ho.shape camTrans
  (coords.2.2, coords.2.1, coords.1, smplPose, ho.shape)

/-- The state `Model.__init__` builds: the stored backbone, head and SMPL
layer, and the freeze flag that selects the trainable modules.
`__init__` reads `cfg.TRAIN.freeze_backbone` only; it reads none of the
camera or input-shape configuration. -/
structure ModelState (Img Feat : Type) where
  backbone : Img → Feat
  head : Feat → HeadOut
  smplLayer : List ℝ → List ℝ → List ℝ → List Vec3
  freezeBackbone : Bool

/-- The constructor `Model.__init__` with failure made explicit: `none` would mean an
exception escapes construction.  The constructor only stores its
collaborators and the freeze flag; it performs no computation on `cfg`
(its camera and resolution fields in particular are never read), so it
always succeeds. -/
def modelInitE {Img Feat : Type} (_cfg : Config) (freeze : Bool)
    (backbone : Img → Feat) (head : Feat → HeadOut)
    (smplLayer : List ℝ → List ℝ → List ℝ → List Vec3) :
    Option (ModelState Img Feat) :=
  some ⟨backbone, head, smplLayer, freeze⟩

/-- The `k_value` computation with Python's failure modes made explicit:
`none` models the `ZeroDivisionError` raised when
`input_img_shape[0]*input_img_shape[1] = 0` and the `ValueError` raised
by `math.sqrt` on a negative argument.  The source evaluates this
expression inside `get_camera_trans`, on every forward call. -/
noncomputable def kValueE (cfg : Config) : Option ℝ :=
  if cfg.inputImgH * cfg.inputImgW = 0 then none
  else if cfg.focalX * cfg.focalY * cfg.camera3dSize * cfg.camera3dSize /
      ((cfg.inputImgH : ℝ) * (cfg.inputImgW : ℝ)) < 0 then none
  else some (kValue cfg)

/-- The method `Model.get_camera_trans` with the `k_value` failure modes made
explicit: the first forward call propagates any configuration error. -/
noncomputable def get_camera_transE (cfg : Config) (camParam : Vec3) : Option Vec3 :=
  (kValueE cfg).map fun k => ⟨camParam.x, camParam.y, k * sigmoid camParam.z⟩

/-- Helper: `getD` through a `map` at an in-range index. -/
theorem getD_map_of_lt {α β : Type} (f : α → β) (l : List α) (i : ℕ)
    (h : i < l.length) (d : α) (d2 : β) :
    (l.map f).getD i d2 = f (l.getD i d) := by
  rw [List.getD_eq_getElem?_getD, List.getElem?_map,
    List.getElem?_eq_getElem h, List.getD_eq_getElem?_getD,
    List.getElem?_eq_getElem h]
  rfl

/-- C1: the 2D projection `joint_proj` returned by `get_coord` is the
pinhole projection of the joint coordinates regressed from the mesh
before the root-joint coordinate is subtracted, and the root-relative
normalization (whatever root index it uses) leaves `joint_proj`
unchanged. -/
theorem get_coord_proj_prenormalization (cfg : Config)
    (smplLayer : List ℝ → List ℝ → List ℝ → List Vec3)
    (rp bp sh : List ℝ) (ct : Vec3) :
    (get_coord cfg smplLayer rp bp sh ct).1
      = projectJoints cfg ct (jointRegress cfg (smplLayer rp bp sh))
    ∧ ∀ r : ℕ,
        (get_coord { cfg with rootJointIdx := r } smplLayer rp bp sh ct).1
          = (get_coord cfg smplLayer rp bp sh ct).1 :=
  ⟨rfl, fun _ => rfl⟩

/-- C2: after the root-relative normalization in `get_coord`, the
returned `joint_cam` has its root-joint row exactly `(0,0,0)`, and the
returned `mesh_cam` is the body-model vertex list with that same joint
root coordinate (taken from the regressed joints, not a separate mesh
root) subtracted from every vertex. -/
theorem get_coord_root_invariant (cfg : Config)
    (smplLayer : List ℝ → List ℝ → List ℝ → List Vec3)
    (rp bp sh : List ℝ) (ct : Vec3)
    (h : cfg.rootJointIdx < cfg.jointRegressor.length) :
    ((get_coord cfg smplLayer rp bp sh ct).2.1).getD cfg.rootJointIdx 0 = 0
    ∧ (get_coord cfg smplLayer rp bp sh ct).2.2
      = (smplLayer rp bp sh).map (fun v =>
          v - (jointRegress cfg (smplLayer rp bp sh)).getD cfg.rootJointIdx 0) := by
  constructor
  · have hlen : cfg.rootJointIdx < (jointRegress cfg (smplLayer rp bp sh)).length := by
      simpa [jointRegress] using h
    show ((jointRegress cfg (smplLayer rp bp sh)).map _).getD _ _ = 0
    rw [getD_map_of_lt _ _ _ hlen 0]
    simp
  · rfl

/-- C2 witness: a concrete one-vertex, one-joint instance. -/
theorem get_coord_root_invariant_witness :
    ((get_coord ⟨1000, 1000, 256, 256, 2.5, 256, 256, [[1]], 0⟩
        (fun _ _ _ => [⟨1, 2, 3⟩]) [] [] [] ⟨0, 0, 0⟩).2.1).getD 0 0 = 0
    ∧ (get_coord ⟨1000, 1000, 256, 256, 2.5, 256, 256, [[1]], 0⟩
        (fun _ _ _ => [⟨1, 2, 3⟩]) [] [] [] ⟨0, 0, 0⟩).2.2
      = [⟨1, 2, 3⟩].map (fun v =>
          v - (jointRegress ⟨1000, 1000, 256, 256, 2.5, 256, 256, [[1]], 0⟩
            [⟨1, 2, 3⟩]).getD 0 0) :=
  get_coord_root_invariant ⟨1000, 1000, 256, 256, 2.5, 256, 256, [[1]], 0⟩
    (fun _ _ _ => [⟨1, 2, 3⟩]) [] [] [] ⟨0, 0, 0⟩ (by simp)

/-- C3: `get_camera_trans` copies the raw `x`, `y` offsets unchanged and
sets `tz = k · sigmoid s` with `k = kValue`; under positive camera
configuration `tz` lies strictly between `0` and `k`. -/
theorem get_camera_trans_spec (cfg : Config) (camParam : Vec3)
    (hfx : 0 < cfg.focalX) (hfy : 0 < cfg.focalY)
    (hsz : cfg.camera3dSize ≠ 0)
    (hh : 0 < cfg.inputImgH) (hw : 0 < cfg.inputImgW) :
    get_camera_trans cfg camParam
      = ⟨camParam.x, camParam.y, kValue cfg * sigmoid camParam.z⟩
    ∧ 0 < (get_camera_trans cfg camParam).z
    ∧ (get_camera_trans cfg camParam).z < kValue cfg := by
  have hexp : 0 < Real.exp (-camParam.z) := Real.exp_pos _
  have hden : (0 : ℝ) < 1 + Real.exp (-camParam.z) := by linarith
  have hsig0 : 0 < sigmoid camParam.z := by
    unfold sigmoid
    positivity
  have hsig1 : sigmoid camParam.z < 1 := by
    unfold sigmoid
    rw [div_lt_one hden]
    linarith
  have hk : 0 < kValue cfg := by
    apply Real.sqrt_pos.mpr
    apply div_pos
    · have h2 : cfg.focalX * cfg.focalY * cfg.camera3dSize * cfg.camera3dSize
          = (cfg.focalX * cfg.focalY) * (cfg.camera3dSize * cfg.camera3dSize) := by
        ring
      rw [h2]
      exact mul_pos (mul_pos hfx hfy) (mul_self_pos.mpr hsz)
    · have h1 : (0 : ℝ) < (cfg.inputImgH : ℝ) := by exact_mod_cast hh
      have h2 : (0 : ℝ) < (cfg.inputImgW : ℝ) := by exact_mod_cast hw
      positivity
  refine ⟨rfl, ?_, ?_⟩
  · show 0 < kValue cfg * sigmoid camParam.z
    exact mul_pos hk hsig0
  · show kValue cfg * sigmoid camParam.z < kValue cfg
    calc kValue cfg * sigmoid camParam.z
        < kValue cfg * 1 := by exact mul_lt_mul_of_pos_left hsig1 hk
      _ = kValue cfg := mul_one _

/-- C3 witness: a concrete positive configuration. -/
theorem get_camera_trans_spec_witness :
    get_camera_trans ⟨1500, 1500, 128, 128, 2.5, 256, 192, [], 0⟩ ⟨1, -2, 3⟩
      = ⟨(1 : ℝ), (-2 : ℝ),
          kValue ⟨1500, 1500, 128, 128, 2.5, 256, 192, [], 0⟩ * sigmoid 3⟩
    ∧ 0 < (get_camera_trans ⟨1500, 1500, 128, 128, 2.5, 256, 192, [], 0⟩ ⟨1, -2, 3⟩).z
    ∧ (get_camera_trans ⟨1500, 1500, 128, 128, 2.5, 256, 192, [], 0⟩ ⟨1, -2, 3⟩).z
        < kValue ⟨1500, 1500, 128, 128, 2.5, 256, 192, [], 0⟩ :=
  get_camera_trans_spec ⟨1500, 1500, 128, 128, 2.5, 256, 192, [], 0⟩ ⟨1, -2, 3⟩
    (by norm_num) (by norm_num) (by norm_num) (by norm_num) (by norm_num)

/-- C4: the projection step of `get_coord` applies the pinhole formula
`(coord + offset) / (depth + tz + 1e-4) · focal + principal` to every
joint, and on the concrete instance `joint_cam = (0,0,5)`,
`cam_trans = (0,0,1)`, `focal = (1000,1000)`, `princpt = (256,256)` the
projected point is exactly `(256, 256)`. -/
theorem get_coord_projection_formula :
    (∀ (cfg : Config) (smplLayer : List ℝ → List ℝ → List ℝ → List Vec3)
        (rp bp sh : List ℝ) (ct : Vec3),
      (get_coord cfg smplLayer rp bp sh ct).1
        = (jointRegress cfg (smplLayer rp bp sh)).map (fun j =>
            ⟨(j.x + ct.x) / (j.z + ct.z + 1e-4) * cfg.focalX + cfg.princptX,
             (j.y + ct.y) / (j.z + ct.z + 1e-4) * cfg.focalY + cfg.princptY⟩))
    ∧ (get_coord ⟨1000, 1000, 256, 256, 2.5, 256, 256, [[1]], 0⟩
        (fun _ _ _ => [⟨0, 0, 5⟩]) [] [] [] ⟨0, 0, 1⟩).1 = [⟨256, 256⟩] := by
  constructor
  · intro cfg smplLayer rp bp sh ct
    rfl
  · show projectJoints _ _ _ = _
    simp only [projectJoints, jointRegress, weightedSum, projectJoint,
      List.map_cons, List.map_nil, List.zipWith_cons_cons, List.zipWith_nil_right,
      List.foldr_cons, List.foldr_nil]
    norm_num

/-- C5: when some joint has `joint_cam_z + tz = 0` exactly, the projection
denominator `joint_cam_z + tz + 1e-4` is the nonzero constant `1e-4`, no
division error occurs, and the projected point is the finite value
obtained by dividing by `1e-4`. -/
theorem projectJoint_degenerate_depth (cfg : Config) (ct j : Vec3)
    (h : j.z + ct.z = 0) :
    j.z + ct.z + 1e-4 ≠ 0
    ∧ projectJoint cfg ct j
      = ⟨(j.x + ct.x) / 1e-4 * cfg.focalX + cfg.princptX,
         (j.y + ct.y) / 1e-4 * cfg.focalY + cfg.princptY⟩ := by
  constructor
  · rw [h]
    norm_num
  · unfold projectJoint
    rw [h]
    norm_num

/-- C5 witness: a joint at depth `−2` with `tz = 2`. -/
theorem projectJoint_degenerate_depth_witness :
    (-2 : ℝ) + 2 + 1e-4 ≠ 0
    ∧ projectJoint ⟨1000, 1000, 256, 256, 2.5, 256, 256, [[1]], 0⟩ ⟨0, 0, 2⟩ ⟨3, 4, -2⟩
      = ⟨((3 : ℝ) + 0) / 1e-4 * 1000 + 256, ((4 : ℝ) + 0) / 1e-4 * 1000 + 256⟩ :=
  projectJoint_degenerate_depth ⟨1000, 1000, 256, 256, 2.5, 256, 256, [[1]], 0⟩
    ⟨0, 0, 2⟩ ⟨3, 4, -2⟩ (by norm_num)

/-- C6: the root-relative normalization step is idempotent — applying it
twice to any `(mesh, joints, root)` with a valid root index equals
applying it once. -/
theorem rootRelNormalize_idempotent (mesh joints : List Vec3) (root : ℕ)
    (h : root < joints.length) :
    rootRelNormalize (rootRelNormalize mesh joints root).1
        (rootRelNormalize mesh joints root).2 root
      = rootRelNormalize mesh joints root := by
  have hroot : ((rootRelNormalize mesh joints root).2).getD root 0 = 0 := by
    show ((joints.map _).getD root 0) = 0
    rw [getD_map_of_lt _ _ _ h 0]
    simp
  show ((rootRelNormalize mesh joints root).1.map
      (fun v => v - (rootRelNormalize mesh joints root).2.getD root 0),
    (rootRelNormalize mesh joints root).2.map
      (fun v => v - (rootRelNormalize mesh joints root).2.getD root 0)) = _
  rw [hroot]
  simp

/-- C6 witness: a concrete one-vertex mesh and one-joint skeleton. -/
theorem rootRelNormalize_idempotent_witness :
    rootRelNormalize (rootRelNormalize [⟨1, 1, 1⟩] [⟨2, 3, 4⟩] 0).1
        (rootRelNormalize [⟨1, 1, 1⟩] [⟨2, 3, 4⟩] 0).2 0
      = rootRelNormalize [⟨1, 1, 1⟩] [⟨2, 3, 4⟩] 0 :=
  rootRelNormalize_idempotent [⟨1, 1, 1⟩] [⟨2, 3, 4⟩] 0 (by simp)

/-- C8: batch noninterference — if two batches agree on sample `i`, the
batched `get_coord` outputs agree on sample `i`, whatever the other
samples are. -/
theorem get_coord_batch_noninterference (cfg : Config)
    (smplLayer : List ℝ → List ℝ → List ℝ → List Vec3)
    (xs ys : List (List ℝ × List ℝ × List ℝ × Vec3)) (i : ℕ)
    (hx : i < xs.length) (hy : i < ys.length)
    (hsame : xs.getD i ([], [], [], 0) = ys.getD i ([], [], [], 0)) :
    (get_coord_batch cfg smplLayer xs).getD i ([], [], [])
      = (get_coord_batch cfg smplLayer ys).getD i ([], [], []) := by
  unfold get_coord_batch
  rw [getD_map_of_lt _ _ _ hx ([], [], [], 0),
    getD_map_of_lt _ _ _ hy ([], [], [], 0), hsame]

/-- C8 witness: two two-sample batches differing only in sample 1 give
identical outputs for sample 0. -/
theorem get_coord_batch_noninterference_witness :
    (get_coord_batch ⟨1000, 1000, 256, 256, 2.5, 256, 256, [[1]], 0⟩
        (fun _ _ _ => [⟨0, 0, 5⟩])
        [([], [], [], ⟨0, 0, 1⟩), ([1], [2], [3], ⟨4, 5, 6⟩)]).getD 0 ([], [], [])
      = (get_coord_batch ⟨1000, 1000, 256, 256, 2.5, 256, 256, [[1]], 0⟩
        (fun _ _ _ => [⟨0, 0, 5⟩])
        [([], [], [], ⟨0, 0, 1⟩), ([7], [8], [9], ⟨0, 0, 0⟩)]).getD 0 ([], [], []) :=
  get_coord_batch_noninterference ⟨1000, 1000, 256, 256, 2.5, 256, 256, [[1]], 0⟩
    (fun _ _ _ => [⟨0, 0, 5⟩])
    [([], [], [], ⟨0, 0, 1⟩), ([1], [2], [3], ⟨4, 5, 6⟩)]
    [([], [], [], ⟨0, 0, 1⟩), ([7], [8], [9], ⟨0, 0, 0⟩)]
    0 (by simp) (by simp) rfl

/-- A configuration with zero input resolution, which makes the `k_value`
expression undefined (division by zero). -/
def cfgZeroRes : Config := ⟨1500, 1500, 128, 128, 2.5, 0, 0, [], 0⟩

/-- C9 counterexample: with zero input resolution (so `k` is undefined),
`Model.__init__` still succeeds — construction never computes `k` — while
`get_camera_trans`, first reached inside a forward call, is where the
configuration error surfaces.  This refutes the claim that `k` is
computed once at construction time and the error surfaced there. -/
theorem kValue_error_not_at_construction :
    (@modelInitE Unit Unit cfgZeroRes true
        (fun _ => ()) (fun _ => ⟨[], [], ⟨0, 0, 0⟩⟩) (fun _ _ _ => [])).isSome = true
    ∧ get_camera_transE cfgZeroRes ⟨0, 0, 0⟩ = none := by
  constructor
  · rfl
  · simp [get_camera_transE, kValueE, cfgZeroRes]

/-- C9 amended: the derived constant `k` is evaluated inside
`get_camera_trans` on every call, not at construction; for any
configuration whose input resolution is zero (making `k` undefined),
model construction succeeds and the error surfaces at the first forward
call instead. -/
theorem kValue_error_deferred_to_forward {Img Feat : Type} (cfg : Config)
    (freeze : Bool) (backbone : Img → Feat) (head : Feat → HeadOut)
    (smplLayer : List ℝ → List ℝ → List ℝ → List Vec3) (camParam : Vec3)
    (h : cfg.inputImgH * cfg.inputImgW = 0) :
    (modelInitE cfg freeze backbone head smplLayer).isSome = true
    ∧ get_camera_transE cfg camParam = none := by
  constructor
  · rfl
  · simp [get_camera_transE, kValueE, h]

/-- C9 witness: the zero-resolution configuration instantiates the
amended claim. -/
theorem kValue_error_deferred_to_forward_witness :
    (@modelInitE Unit Unit cfgZeroRes false
        (fun _ => ()) (fun _ => ⟨[], [], ⟨0, 0, 0⟩⟩) (fun _ _ _ => [])).isSome = true
    ∧ get_camera_transE cfgZeroRes ⟨1, 2, 3⟩ = none :=
  kValue_error_deferred_to_forward cfgZeroRes false
    (fun _ => ()) (fun _ => ⟨[], [], ⟨0, 0, 0⟩⟩) (fun _ _ _ => []) ⟨1, 2, 3⟩ rfl

/-- C10: the fifth component of `forward`'s output is exactly the shape
tensor produced by the head on the backbone features — the coordinate
pipeline passes it through unchanged. -/
theorem forward_shape_passthrough {Img Feat : Type} (cfg : Config)
    (backbone : Img → Feat) (head : Feat → HeadOut)
    (smplLayer : List ℝ → List ℝ → List ℝ → List Vec3) (img : Img) :
    (forward cfg backbone head smplLayer img).2.2.2.2
      = (head (backbone img)).shape :=
  rfl

/-- Normalization fixes unit vectors. -/
theorem Vec3.normalize_of_normSq_one (v : Vec3) (h : v.normSq = 1) :
    v.normalize = v := by
  unfold Vec3.normalize Vec3.norm
  rw [h, Real.sqrt_one]
  ext <;> simp

/-- Scaling by zero gives the zero vector. -/
theorem Vec3.zero_smul (v : Vec3) : (0 : ℝ) • v = 0 := by
  ext <;> simp

/-- The first column of a Rodrigues matrix of a unit axis is a unit
vector. -/
theorem rodrigues_col1_normSq (θ : ℝ) (u : Vec3) (h : u.normSq = 1) :
    ((rodrigues θ u).col1).normSq = 1 := by
  have hN : u.x * u.x + u.y * u.y + u.z * u.z = 1 := h
  have hsc := Real.sin_sq_add_cos_sq θ
  simp only [rodrigues, Mat3.col1, Vec3.normSq]
  linear_combination ((1 - Real.cos θ ^ 2) + (1 - Real.cos θ) ^ 2 * u.x ^ 2) * hN
    + (u.y ^ 2 + u.z ^ 2) * hsc

/-- The second column of a Rodrigues matrix of a unit axis is a unit
vector. -/
theorem rodrigues_col2_normSq (θ : ℝ) (u : Vec3) (h : u.normSq = 1) :
    ((rodrigues θ u).col2).normSq = 1 := by
  have hN : u.x * u.x + u.y * u.y + u.z * u.z = 1 := h
  have hsc := Real.sin_sq_add_cos_sq θ
  simp only [rodrigues, Mat3.col2, Vec3.normSq]
  linear_combination ((1 - Real.cos θ ^ 2) + (1 - Real.cos θ) ^ 2 * u.y ^ 2) * hN
    + (u.x ^ 2 + u.z ^ 2) * hsc

/-- The first two columns of a Rodrigues matrix of a unit axis are
orthogonal. -/
theorem rodrigues_col1_dot_col2 (θ : ℝ) (u : Vec3) (h : u.normSq = 1) :
    ((rodrigues θ u).col1).dot ((rodrigues θ u).col2) = 0 := by
  have hN : u.x * u.x + u.y * u.y + u.z * u.z = 1 := h
  have hsc := Real.sin_sq_add_cos_sq θ
  simp only [rodrigues, Mat3.col1, Mat3.col2, Vec3.dot]
  linear_combination ((1 - Real.cos θ) ^ 2 * u.x * u.y) * hN - (u.x * u.y) * hsc

/-- The cross product of the first two columns of a Rodrigues matrix of a
unit axis is its third column. -/
theorem rodrigues_col1_cross_col2 (θ : ℝ) (u : Vec3) (h : u.normSq = 1) :
    ((rodrigues θ u).col1).cross ((rodrigues θ u).col2) = (rodrigues θ u).col3 := by
  have hN : u.x * u.x + u.y * u.y + u.z * u.z = 1 := h
  have hsc := Real.sin_sq_add_cos_sq θ
  ext
  · simp only [rodrigues, Mat3.col1, Mat3.col2, Mat3.col3, Vec3.cross]
    linear_combination (Real.sin θ * (1 - Real.cos θ) * u.y) * hN + (u.x * u.z) * hsc
  · simp only [rodrigues, Mat3.col1, Mat3.col2, Mat3.col3, Vec3.cross]
    linear_combination (-(Real.sin θ * (1 - Real.cos θ) * u.x)) * hN + (u.y * u.z) * hsc
  · simp only [rodrigues, Mat3.col1, Mat3.col2, Mat3.col3, Vec3.cross]
    linear_combination (Real.cos θ * (1 - Real.cos θ)) * hN + (u.z * u.z) * hsc

/-- Gram-Schmidt applied to the first two columns of a Rodrigues matrix
of a unit axis returns those columns unchanged, so the converter
reconstructs the original rotation matrix. -/
theorem rodrigues_gram_schmidt (θ : ℝ) (u : Vec3) (h : u.normSq = 1) :
    ((rodrigues θ u).col1).normalize = (rodrigues θ u).col1
    ∧ ((rodrigues θ u).col2
        - (((rodrigues θ u).col1).dot ((rodrigues θ u).col2)) • (rodrigues θ u).col1).normalize
      = (rodrigues θ u).col2 := by
  refine ⟨Vec3.normalize_of_normSq_one _ (rodrigues_col1_normSq θ u h), ?_⟩
  rw [rodrigues_col1_dot_col2 θ u h, Vec3.zero_smul, Vec3.sub_zero]
  exact Vec3.normalize_of_normSq_one _ (rodrigues_col2_normSq θ u h)

/-- The trace of a Rodrigues matrix of a unit axis is `1 + 2 cos θ`. -/
theorem rodrigues_trace (θ : ℝ) (u : Vec3) (h : u.normSq = 1) :
    (rodrigues θ u).m11 + (rodrigues θ u).m22 + (rodrigues θ u).m33
      = 1 + 2 * Real.cos θ := by
  have hN : u.x * u.x + u.y * u.y + u.z * u.z = 1 := h
  simp only [rodrigues]
  linear_combination (1 - Real.cos θ) * hN

/-- The vector of the skew-symmetric part of a Rodrigues matrix is
`sin θ · u`. -/
theorem rodrigues_skewvec (θ : ℝ) (u : Vec3) :
    (⟨((rodrigues θ u).m32 - (rodrigues θ u).m23) / 2,
      ((rodrigues θ u).m13 - (rodrigues θ u).m31) / 2,
      ((rodrigues θ u).m21 - (rodrigues θ u).m12) / 2⟩ : Vec3)
      = ⟨Real.sin θ * u.x, Real.sin θ * u.y, Real.sin θ * u.z⟩ := by
  ext <;> simp only [rodrigues] <;> ring

/-- Normalizing `sin θ · u` for a unit `u` and `θ ∈ (0, π)` gives back
`u`. -/
theorem normalize_sin_smul (θ : ℝ) (u : Vec3) (hθ0 : 0 < θ) (hθπ : θ < Real.pi)
    (h : u.normSq = 1) :
    (⟨Real.sin θ * u.x, Real.sin θ * u.y, Real.sin θ * u.z⟩ : Vec3).normalize = u := by
  have hN : u.x * u.x + u.y * u.y + u.z * u.z = 1 := h
  have hs : 0 < Real.sin θ := Real.sin_pos_of_pos_of_lt_pi hθ0 hθπ
  have hnSq : (⟨Real.sin θ * u.x, Real.sin θ * u.y, Real.sin θ * u.z⟩ : Vec3).normSq
      = Real.sin θ ^ 2 := by
    simp only [Vec3.normSq]
    linear_combination (Real.sin θ ^ 2) * hN
  unfold Vec3.normalize Vec3.norm
  rw [hnSq, Real.sqrt_sq hs.le]
  ext <;> simp <;> field_simp

/-- C7: rotation round trip — for every axis-angle `(θ, u)` with
`θ ∈ (0, π)` and unit axis `u`, encoding the first two columns of the
Rodrigues rotation matrix as a 6-vector and running it through
`rot6d_to_axis_angle` reproduces `θ • u` exactly; and in the degenerate
case `θ = 0` the converter returns the zero vector (no division-by-zero
failure: all operations are total). -/
theorem rot6d_round_trip :
    (∀ (θ : ℝ) (u : Vec3), 0 < θ → θ < Real.pi → u.normSq = 1 →
      rot6d_to_axis_angle (encode6d (rodrigues θ u)).1 (encode6d (rodrigues θ u)).2
        = θ • u)
    ∧ ∀ u : Vec3,
        rot6d_to_axis_angle (encode6d (rodrigues 0 u)).1 (encode6d (rodrigues 0 u)).2
          = 0 := by
  constructor
  · intro θ u hθ0 hθπ h
    have hgs := rodrigues_gram_schmidt θ u h
    have hcross := rodrigues_col1_cross_col2 θ u h
    show rot6d_to_axis_angle ((rodrigues θ u).col1) ((rodrigues θ u).col2) = θ • u
    simp only [rot6d_to_axis_angle]
    rw [hgs.1, hgs.2, hcross]
    simp only [Mat3.ofCols, Mat3.col1, Mat3.col2, Mat3.col3]
    rw [show ((rodrigues θ u).m11 + (rodrigues θ u).m22 + (rodrigues θ u).m33 - 1) / 2
        = Real.cos θ by rw [rodrigues_trace θ u h]; ring]
    rw [Real.arccos_cos hθ0.le hθπ.le]
    rw [rodrigues_skewvec θ u, normalize_sin_smul θ u hθ0 hθπ h]
  · intro u
    have hId : rodrigues 0 u = ⟨1, 0, 0, 0, 1, 0, 0, 0, 1⟩ := by
      simp only [rodrigues, Real.cos_zero, Real.sin_zero]
      norm_num
    rw [hId]
    show rot6d_to_axis_angle ⟨1, 0, 0⟩ ⟨0, 1, 0⟩ = 0
    simp only [rot6d_to_axis_angle, Vec3.normalize, Vec3.norm, Vec3.normSq,
      Vec3.dot, Vec3.cross, Mat3.ofCols]
    norm_num [Real.arccos_one]
    ext <;> simp

/-- C7 witness: a quarter turn about the `z` axis. -/
theorem rot6d_round_trip_witness :
    rot6d_to_axis_angle
        (encode6d (rodrigues (Real.pi / 2) ⟨0, 0, 1⟩)).1
        (encode6d (rodrigues (Real.pi / 2) ⟨0, 0, 1⟩)).2
      = (Real.pi / 2) • (⟨0, 0, 1⟩ : Vec3) :=
  rot6d_round_trip.1 (Real.pi / 2) ⟨0, 0, 1⟩
    (by have := Real.pi_pos; linarith)
    (by have := Real.pi_pos; linarith)
    (by norm_num [Vec3.normSq])

end PoseEst
